import Mathlib

/-!
Verification of the claude-max-proxy core (src/auth.ts, src/server.ts):
a shallow embedding of the request mutation pipeline, the token lifecycle
manager, the streaming response interceptor and the statistics ledger,
together with theorems settling the frozen claims about them.
-/

/-! ## JSON value model

Request bodies arrive through JSON.parse, so every body field is a JSON
value.  We model JSON values with integers for numbers (all the fields the
code reads are token counts). -/

inductive JValue where
  | null
  | bool (b : Bool)
  | num (n : Int)
  | str (s : String)
  | arr (items : List JValue)
  | obj (fields : List (String × JValue))

/-- First-match object field lookup; a missing key reads as undefined,
which we collapse to null (both are nullish and falsy in JS). -/
def jLookup (fields : List (String × JValue)) (k : String) : JValue :=
  match fields with
  | [] => .null
  | (k', v) :: fs => if k' = k then v else jLookup fs k

/-- JS truthiness of a JSON value (arrays and objects are always truthy). -/
def jTruthy : JValue → Bool
  | .null => false
  | .bool b => b
  | .num n => n != 0
  | .str s => s != ""
  | .arr _ => true
  | .obj _ => true

/-- JS typeof v === "object" for a non-null JSON value. -/
def isObjLike : JValue → Bool
  | .arr _ => true
  | .obj _ => true
  | _ => false

/-- Property read v.k as the code performs it on values it got from
JSON.parse: objects look the key up, any other non-null value yields
undefined (read as null here).  Reading a property of null throws in JS;
call sites that can receive null guard with optional chaining, modelled
by jGetOpt returning null for null receivers. -/
def jGetOpt : JValue → String → JValue
  | .obj fs, k => jLookup fs k
  | _, _ => .null

/-- Coercion used for usage counters: the nullish-coalescing default
(x ?? 0) followed by use as a number.  The TS code declares these
counters as number; non-numeric JSON values are outside that type and
collapse to 0 here. -/
def jNumOr0 : JValue → Int
  | .num n => n
  | _ => 0

/-- Coercion for string fields with default d (x ?? d, used as string). -/
def jStrOr (d : String) : JValue → String
  | .str s => s
  | _ => d

/-! ## Cache-control counting (server.ts countCache, lines 305-317)

The recursive structural scan: a truthy cache_control field on an object
counts 1; arrays recurse into their items; objects recurse into those of
their values that are non-null objects. -/

mutual

def countCache : JValue → Nat
  | .arr items => countCacheItems items
  | .obj fs =>
      (if jTruthy (jLookup fs "cache_control") then 1 else 0) + countCacheVals fs
  | _ => 0

def countCacheItems : List JValue → Nat
  | [] => 0
  | i :: is => countCache i + countCacheItems is

def countCacheVals : List (String × JValue) → Nat
  | [] => 0
  | (_, v) :: fs => (if isObjLike v then countCache v else 0) + countCacheVals fs

end

example : countCache (.obj [("cache_control", .obj [("type", .str "ephemeral")])]) = 1 := by decide

example : countCache (.arr [.obj [("cache_control", .obj [])], .obj [("x", .obj [("cache_control", .bool true)])]]) = 2 := by decide

/-! ## Cache-control placement (server.ts messagesRelay, lines 303-331)

If CACHE_ENABLED, count the existing annotations over system + messages +
tools; while the running count is strictly below 4, attach an ephemeral
cache_control to the last system block (if it has none) and then to the
last tool (if it has none). -/

/-- The marker the code attaches: cache_control = (type: ephemeral). -/
def ephemeralCC : JValue := .obj [("type", .str "ephemeral")]

/-- JS property assignment obj.k = v: overwrite in place if the key
exists, append otherwise. -/
def setField (k : String) (v : JValue) : List (String × JValue) → List (String × JValue)
  | [] => [(k, v)]
  | (k', v') :: fs => if k' = k then (k', v) :: fs else (k', v') :: setField k v fs

/-- The three body fields the cache-control step reads and writes.  The
remaining body fields are irrelevant to this step. -/
structure CacheBody where
  system : JValue
  messages : JValue
  tools : JValue

/-- Total annotation count over system + messages + tools, exactly the
sum the code computes at line 318. -/
def countTotal (b : CacheBody) : Nat :=
  countCache b.system + countCache b.messages + countCache b.tools

/-- Attach cache_control to the last element of a block list when that
element is an object without a truthy cache_control, mirroring lines
321-323 and 327-328.  A well-formed body's last block is an object; for
any other last element the source would throw (strict-mode property
assignment on a primitive), which no theorem below exercises. -/
def tagLast (blocks : List JValue) : List JValue × Bool :=
  match blocks.getLast? with
  | some (.obj fs) =>
      if jTruthy (jLookup fs "cache_control") then (blocks, false)
      else (blocks.dropLast ++ [.obj (setField "cache_control" ephemeralCC fs)], true)
  | _ => (blocks, false)

/-! ## Substring and replacement helpers

JS String.prototype.includes and String.prototype.replace with a string
pattern (which replaces only the first occurrence), modelled over
character lists. -/

/-- Leftmost occurrence test: s.includes(pat). -/
def containsSub (pat : List Char) : List Char → Bool
  | [] => pat.isEmpty
  | c :: rest => pat.isPrefixOf (c :: rest) || containsSub pat rest

/-- s.replace(pat, "") for a string pattern: remove the first occurrence
only, leave everything else untouched. -/
def replaceFirst (pat : List Char) : List Char → List Char
  | [] => []
  | c :: rest =>
      if pat.isPrefixOf (c :: rest) then (c :: rest).drop pat.length
      else c :: replaceFirst pat rest

/-- String-level wrapper for includes. -/
def strContains (pat s : String) : Bool := containsSub pat.data s.data

/-- The first placement block (lines 320-325): while the running count
is below 4 and system is a non-empty array, tag its last block, bumping
the running count when a tag was added. -/
def placeSystemCC (b : CacheBody) (existing : Nat) : CacheBody × Nat :=
  match b.system with
  | .arr blocks =>
      if existing < 4 ∧ 0 < blocks.length then
        let t := tagLast blocks
        ({ b with system := .arr t.1 }, if t.2 then existing + 1 else existing)
      else (b, existing)
  | _ => (b, existing)

/-- The second placement block (lines 326-330): while the running count
is below 4 and tools is a non-empty array, tag its last element. -/
def placeToolsCC (b1 : CacheBody) (existing1 : Nat) : CacheBody :=
  match b1.tools with
  | .arr tls =>
      if existing1 < 4 ∧ 0 < tls.length then { b1 with tools := .arr (tagLast tls).1 }
      else b1
  | _ => b1

/-- The cache-control placement step (lines 303-331): count the existing
annotations, then run the two placement blocks in order. -/
def placeCache (cacheEnabled : Bool) (b : CacheBody) : CacheBody :=
  if cacheEnabled then
    let p := placeSystemCC b (countTotal b)
    placeToolsCC p.1 p.2
  else b

/-! ## System prompt normalization (server.ts ensureSystem, lines 256-284)

Coerce a falsy system to an empty block list and a bare string to one
text block; unshift the identity block unless some text block already
contains its text; when a custom prompt is configured, splice it in at
index 1 unless a block carrying the internal _proxy marker is already
present.  Property reads that would throw in JS (reading .type of a null
block, calling .includes on a non-string text, calling .some on a
non-array system) are modelled as Except.error. -/

/-- The identity text (CC_SYSTEM, server.ts line 40). -/
def CC_SYSTEM : String := "You are Claude Code, Anthropic's official CLI for Claude."

/-- The block ensureSystem unshifts when the identity text is missing. -/
def authBlock : JValue := .obj [("type", .str "text"), ("text", .str CC_SYSTEM)]

/-- The marked block ensureSystem splices in for a custom prompt c. -/
def customBlock (c : String) : JValue :=
  .obj [("type", .str "text"), ("text", .str c), ("_proxy", .bool true)]

/-- Property read b.k that throws on a null receiver (no optional
chaining at this call site). -/
def jGetEx : JValue → String → Except Unit JValue
  | .null, _ => .error ()
  | .obj fs, k => .ok (jLookup fs k)
  | _, _ => .ok .null

/-- The predicate of line 265-267:
b.type === "text" && b.text?.includes(CC_SYSTEM).
Calling .includes on a truthy non-string text throws. -/
def blockIsAuth (b : JValue) : Except Unit Bool := do
  let t ← jGetEx b "type"
  match t with
  | .str s =>
      if s = "text" then
        let tx ← jGetEx b "text"
        match tx with
        | .null => pure false
        | .str s' => pure (strContains CC_SYSTEM s')
        | _ => .error ()
      else pure false
  | _ => pure false

/-- The predicate of line 273-275: b.type === "text" && b._proxy === true. -/
def blockIsProxy (b : JValue) : Except Unit Bool := do
  let t ← jGetEx b "type"
  match t with
  | .str s =>
      if s = "text" then
        let pr ← jGetEx b "_proxy"
        match pr with
        | .bool true => pure true
        | _ => pure false
      else pure false
  | _ => pure false

/-- Array.prototype.some: short-circuiting, propagating a thrown
exception from the predicate. -/
def jsomeEx (p : JValue → Except Unit Bool) : List JValue → Except Unit Bool
  | [] => .ok false
  | b :: bs => do
      if (← p b) then pure true else jsomeEx p bs

/-- ensureSystem (lines 256-284).  custom is the result of
getCustomSystem(); the code guards it with a truthiness check, so the
empty string behaves like none. -/
def ensureSystem (custom : Option String) (system : JValue) : Except Unit JValue :=
  let sys : JValue :=
    if ¬ jTruthy system then .arr []
    else match system with
      | .str s => .arr [.obj [("type", .str "text"), ("text", .str s)]]
      | v => v
  match sys with
  | .arr blocks =>
      match jsomeEx blockIsAuth blocks with
      | .error e => .error e
      | .ok hasAuth =>
          let blocks1 := if hasAuth then blocks else authBlock :: blocks
          match custom with
          | some c =>
              if c ≠ "" then
                match jsomeEx blockIsProxy blocks1 with
                | .error e => .error e
                | .ok hasCustom =>
                    if hasCustom then .ok (.arr blocks1)
                    else .ok (.arr (blocks1.take 1 ++ [customBlock c] ++ blocks1.drop 1))
              else .ok (.arr blocks1)
          | none => .ok (.arr blocks1)
  | _ => .error ()

/-! ## Model alias rewrite (server.ts messagesRelay, line 295)

if (body.model?.includes("[1m]")) body.model = body.model.replace("[1m]", "") -/

/-- The proxy-only extended-context suffix token. -/
def PAT1M : List Char := ['[', '1', 'm', ']']

/-- The model rewrite applied to a present string model field. -/
def stripModel (m : List Char) : List Char :=
  if containsSub PAT1M m then replaceFirst PAT1M m else m

/-! ## SSE frame splitting (server.ts interceptStream, lines 150-156)

The interceptor accumulates decoded text in buf, splits on the blank-line
separator, re-buffers the tail fragment and iterates over the complete
parts.  We model decoded text as character lists and implement the
leftmost, non-overlapping split of JS String.prototype.split. -/

/-- Prepend a character to the first piece of a split result. -/
def consHead (c : Char) : List (List Char) → List (List Char)
  | [] => [[c]]
  | p :: ps => (c :: p) :: ps

/-- buf.split two-newline separator, leftmost and non-overlapping,
exactly JS split semantics: n separators yield n+1 pieces. -/
def splitSep : List Char → List (List Char)
  | [] => [[]]
  | [c] => [[c]]
  | c1 :: c2 :: rest =>
      if c1 = '\n' ∧ c2 = '\n' then [] :: splitSep rest
      else consHead c1 (splitSep (c2 :: rest))

/-- part.split on a single newline (line 155). -/
def splitNL : List Char → List (List Char)
  | [] => [[]]
  | c :: rest => if c = '\n' then [] :: splitNL rest else consHead c (splitNL rest)

/-- Inverse of splitSep: rejoin pieces with the blank-line separator. -/
def joinSep : List (List Char) → List Char
  | [] => []
  | [p] => p
  | p :: ps => p ++ '\n' :: '\n' :: joinSep ps

/-- Concatenation of the decoded chunks of a stream. -/
def joinChunks : List (List Char) → List Char
  | [] => []
  | c :: cs => c ++ joinChunks cs

/-- Line 155-156: the first line of the frame starting with the data
marker, with the marker stripped (slice(6)). -/
def findDataLine (part : List Char) : Option (List Char) :=
  ((splitNL part).find? (fun l => (['d', 'a', 't', 'a', ':', ' '] : List Char).isPrefixOf l)).map
    (fun l => l.drop 6)

/-! ## Interceptor telemetry state (server.ts interceptStream, lines 113-123)

The mutable locals of interceptStream.  The frames field is a ghost
accumulator recording each complete part handed to the for-loop of line
154, in order; it drives the frame-accounting theorems and affects
nothing else. -/

structure TelState where
  buf : List Char
  blockType : String
  toolName : String
  toolInput : String
  inputTokens : Int
  outputTokens : Int
  cacheCreation : Int
  cacheRead : Int
  stopReason : String
  frames : List (List Char)

/-- Initial values of the interceptStream locals (lines 114-123). -/
def initTel : TelState :=
  { buf := [], blockType := "", toolName := "", toolInput := "",
    inputTokens := 0, outputTokens := 0, cacheCreation := 0, cacheRead := 0,
    stopReason := "?", frames := [] }

/-- The event dispatch of lines 159-208 applied to one parsed frame
payload.  A null payload models the throw of data.type on null, caught
by the inner catch: no state change. -/
def applyEvent (st : TelState) (d : JValue) : TelState :=
  match d with
  | .null => st
  | _ =>
    match jGetOpt d "type" with
    | .str t =>
        if t = "message_start" then
          let usage := jGetOpt (jGetOpt d "message") "usage"
          { st with inputTokens := jNumOr0 (jGetOpt usage "input_tokens"),
                    cacheCreation := jNumOr0 (jGetOpt usage "cache_creation_input_tokens"),
                    cacheRead := jNumOr0 (jGetOpt usage "cache_read_input_tokens") }
        else if t = "content_block_start" then
          let cb := jGetOpt d "content_block"
          let bt := jStrOr "" (jGetOpt cb "type")
          if bt = "tool_use" ∨ bt = "server_tool_use" then
            { st with blockType := bt, toolName := jStrOr "?" (jGetOpt cb "name"),
                      toolInput := "" }
          else { st with blockType := bt }
        else if t = "content_block_delta" then
          let dd := jGetOpt d "delta"
          if jStrOr "" (jGetOpt dd "type") = "input_json_delta" then
            { st with toolInput := st.toolInput ++ jStrOr "" (jGetOpt dd "partial_json") }
          else st
        else if t = "content_block_stop" then
          { st with blockType := "", toolName := "", toolInput := "" }
        else if t = "message_delta" then
          let u := jGetOpt d "usage"
          if jTruthy u then
            { st with outputTokens := jNumOr0 (jGetOpt u "output_tokens"),
                      stopReason := jStrOr "?" (jGetOpt (jGetOpt d "delta") "stop_reason") }
          else st
        else st
    | _ => st

/-- One complete part (lines 154-210): find the data line, try to parse
its payload (parse stands for JSON.parse; none models a throw, skipped by
the inner catch), and apply the event dispatch. -/
def processPart (parse : List Char → Option JValue) (st : TelState) (part : List Char) :
    TelState :=
  let st1 := { st with frames := st.frames ++ [part] }
  match findDataLine part with
  | none => st1
  | some payload =>
      match parse payload with
      | none => st1
      | some d => applyEvent st1 d

/-- One read (lines 150-156): append the decoded chunk to buf, split on
the separator, re-buffer the tail, process the complete parts. -/
def processChunk (parse : List Char → Option JValue) (st : TelState) (chunk : List Char) :
    TelState :=
  let parts := splitSep (st.buf ++ chunk)
  let st1 := { st with buf := parts.getLastD [] }
  (parts.dropLast).foldl (processPart parse) st1

/-- The read loop (lines 130-211): every successfully read chunk is
enqueued downstream unchanged, then fed to the telemetry parser. -/
def runLoop (parse : List Char → Option JValue) :
    TelState → List (List Char) → TelState × List (List Char)
  | st, [] => (st, [])
  | st, c :: cs =>
      let res := runLoop parse (processChunk parse st c) cs
      (res.1, c :: res.2)

/-! ## Statistics ledger (server.ts lines 76-108) -/

/-- One Usage Record (interface RequestRecord, lines 76-86). -/
structure RequestRecord where
  ts : String
  model : String
  messages : Nat
  inputTokens : Int
  outputTokens : Int
  cacheCreation : Int
  cacheRead : Int
  durationMs : Int
  stopReason : String
deriving DecidableEq

/-- The process-wide stats object (lines 88-96). -/
structure Stats where
  totalRequests : Nat
  totalInputTokens : Int
  totalOutputTokens : Int
  totalCacheCreation : Int
  totalCacheRead : Int
  recentRequests : List RequestRecord
  activeRequests : Int
deriving DecidableEq

/-- Initial stats values (lines 88-96). -/
def emptyStats : Stats :=
  { totalRequests := 0, totalInputTokens := 0, totalOutputTokens := 0,
    totalCacheCreation := 0, totalCacheRead := 0, recentRequests := [],
    activeRequests := 0 }

/-- MAX_RECENT (line 98). -/
def MAX_RECENT : Nat := 20

/-- recordRequest (lines 100-108): bump the aggregates, unshift the
record, pop the oldest when the buffer exceeds MAX_RECENT. -/
def recordRequest (r : RequestRecord) (s : Stats) : Stats :=
  let recents := r :: s.recentRequests
  { s with
    totalRequests := s.totalRequests + 1,
    totalInputTokens := s.totalInputTokens + r.inputTokens,
    totalOutputTokens := s.totalOutputTokens + r.outputTokens,
    totalCacheCreation := s.totalCacheCreation + r.cacheCreation,
    totalCacheRead := s.totalCacheRead + r.cacheRead,
    recentRequests := if recents.length > MAX_RECENT then recents.dropLast else recents }

/-! ## The intercepted stream end to end (server.ts interceptStream)

A run consumes the chunks the upstream reader delivers and then either a
clean end of stream (done, lines 132-147: decrement activeRequests,
record one Usage Record, close the downstream controller) or a read
failure (lines 212-214: signal an error downstream, nothing else). -/

/-- How the upstream read loop ends. -/
inductive ReadOutcome where
  | done
  | fail
deriving DecidableEq

/-- What an intercepted run produces besides the updated ledger: the
chunks enqueued downstream, the termination signals, and the Usage
Records passed to recordRequest during the run. -/
structure RunOut where
  out : List (List Char)
  closed : Bool
  errored : Bool
  records : List RequestRecord

/-- The Usage Record built in the done branch (lines 134-144).  nowTs
and durMs stand for the wall-clock reads Date.now / toISOString. -/
def mkRecord (nowTs : String) (durMs : Int) (model : String) (msgCount : Nat)
    (st : TelState) : RequestRecord :=
  { ts := nowTs, model := model, messages := msgCount,
    inputTokens := st.inputTokens, outputTokens := st.outputTokens,
    cacheCreation := st.cacheCreation, cacheRead := st.cacheRead,
    durationMs := durMs, stopReason := st.stopReason }

/-- interceptStream (lines 112-217) over a whole upstream read sequence:
increment activeRequests on entry (line 124), pump the loop, then apply
the done or error branch. -/
def interceptRun (parse : List Char → Option JValue) (nowTs : String) (durMs : Int)
    (model : String) (msgCount : Nat) (s0 : Stats) (chunks : List (List Char))
    (oc : ReadOutcome) : Stats × RunOut :=
  let s1 := { s0 with activeRequests := s0.activeRequests + 1 }
  let pumped := runLoop parse initTel chunks
  match oc with
  | .done =>
      let r := mkRecord nowTs durMs model msgCount pumped.1
      let s2 := recordRequest r { s1 with activeRequests := s1.activeRequests - 1 }
      (s2, { out := pumped.2, closed := true, errored := false, records := [r] })
  | .fail =>
      (s1, { out := pumped.2, closed := false, errored := true, records := [] })

/-- Line 393-395 of messagesRelay: the upstream response body is wrapped
by interceptStream only when the thinking log is enabled, the request is
streaming, and an upstream body is present; recordRequest is reachable
from nowhere else, so the number of Usage Records a completed request
appends is the records of its intercepted run, or zero without
interception. -/
def relayRecordCount (parse : List Char → Option JValue) (thinkingLog streaming hasBody : Bool)
    (chunks : List (List Char)) : Nat :=
  if thinkingLog && streaming && hasBody then
    ((interceptRun parse "" 0 "" 0 emptyStats chunks .done).2.records).length
  else 0

/-! ## Token lifecycle manager (auth.ts lines 24-108)

getAccessToken runs synchronously (no suspension point) from the expiry
check through the read-check-set of the refreshing slot, so under the JS
event loop each call is one atomic step against the shared state; the
in-flight refresh settles later, in its own step.  We model the shared
state, a caller step, and the settling step; outstanding refresh
operations are numbered so that awaiting the same promise is awaiting
the same number. -/

/-- EXPIRY_BUFFER_MS (auth.ts line 13). -/
def EXPIRY_BUFFER_MS : Int := 60000

/-- The module state of auth.ts: the cached credential's access token
and expiry, the refreshing slot, plus instrumentation: the id the next
refresh operation would get and how many refresh network calls have been
issued. -/
structure AuthSt where
  access : String
  expires : Int
  refreshing : Option Nat
  nextId : Nat
  networkCalls : Nat
deriving DecidableEq

/-- What one getAccessToken call returns to its caller: the cached token
immediately, or the in-flight refresh promise it must await. -/
inductive TokenOutcome where
  | cachedTok (tok : String)
  | awaitRefresh (id : Nat)
deriving DecidableEq

/-- One getAccessToken call with the credential already loaded (lines
99-107): return the cached token while it is still outside the expiry
buffer; otherwise join the in-flight refresh if the slot is occupied, or
start a new refresh (issuing its network call) and occupy the slot. -/
def getTokenStep (now : Int) (st : AuthSt) : AuthSt × TokenOutcome :=
  if now < st.expires - EXPIRY_BUFFER_MS then (st, .cachedTok st.access)
  else
    match st.refreshing with
    | some id => (st, .awaitRefresh id)
    | none =>
        ({ st with refreshing := some st.nextId, nextId := st.nextId + 1,
                   networkCalls := st.networkCalls + 1 },
         .awaitRefresh st.nextId)

/-- A settled refresh promise: the new access token, or the rejection
(refresh failure) all waiters observe. -/
def RefreshSettled : Type := Except String String

/-- The settling step of the refresh promise (auth.ts lines 84-91 and
the finally of line 105): update the credential on success, clear the
slot in every case. -/
def settleRefresh (res : RefreshSettled) (newExpires : Int) (st : AuthSt) : AuthSt :=
  let st1 := { st with refreshing := none }
  match res with
  | .ok tok => { st1 with access := tok, expires := newExpires }
  | .error _ => st1

/-- The value a caller ultimately receives, given how each numbered
refresh promise settles. -/
def callerResult (settled : Nat → RefreshSettled) : TokenOutcome → RefreshSettled
  | .cachedTok t => .ok t
  | .awaitRefresh id => settled id

/-- n concurrent callers executing their atomic getAccessToken steps in
sequence, no other event interleaved. -/
def runCallers (now : Int) (st : AuthSt) : Nat → AuthSt × List TokenOutcome
  | 0 => (st, [])
  | n + 1 =>
      let fst := getTokenStep now st
      let rest := runCallers now fst.1 n
      (rest.1, fst.2 :: rest.2)

/-! ## Theorems -/

/-- The read loop forwards exactly the chunks it reads, in order,
whatever the telemetry parser does. -/
theorem runLoop_out (parse : List Char → Option JValue) :
    ∀ (cs : List (List Char)) (st : TelState), (runLoop parse st cs).2 = cs := by
  intro cs
  induction cs with
  | nil => intro st; rfl
  | cons c cs ih => intro st; simp [runLoop, ih]

/-- Claim C1: for every upstream SSE byte stream and every way of
splitting it into read chunks, the stream the interceptor forwards
downstream is byte-identical to the concatenation of the input chunks,
for every possible behaviour of the JSON frame parser and for both the
clean and the failing end of stream. -/
theorem c1_stream_passthrough (parse : List Char → Option JValue) (nowTs : String)
    (durMs : Int) (model : String) (msgCount : Nat) (s0 : Stats)
    (chunks : List (List Char)) (oc : ReadOutcome) :
    (interceptRun parse nowTs durMs model msgCount s0 chunks oc).2.out = chunks ∧
    joinChunks (interceptRun parse nowTs durMs model msgCount s0 chunks oc).2.out =
      joinChunks chunks := by
  have h : (interceptRun parse nowTs durMs model msgCount s0 chunks oc).2.out = chunks := by
    cases oc <;> simp [interceptRun, runLoop_out]
  exact ⟨h, by rw [h]⟩

/-- Claim C7: when the upstream read fails, the downstream stream is
terminated with an error signal, not closed normally, and no Usage
Record — not even a partial one — reaches the ledger: recordRequest is
never called and the ledger's record fields are untouched. -/
theorem c7_error_no_record (parse : List Char → Option JValue) (nowTs : String)
    (durMs : Int) (model : String) (msgCount : Nat) (s0 : Stats)
    (chunks : List (List Char)) :
    (interceptRun parse nowTs durMs model msgCount s0 chunks .fail).2.errored = true ∧
    (interceptRun parse nowTs durMs model msgCount s0 chunks .fail).2.closed = false ∧
    (interceptRun parse nowTs durMs model msgCount s0 chunks .fail).2.records = [] ∧
    (interceptRun parse nowTs durMs model msgCount s0 chunks .fail).1.recentRequests =
      s0.recentRequests ∧
    (interceptRun parse nowTs durMs model msgCount s0 chunks .fail).1.totalRequests =
      s0.totalRequests := by
  refine ⟨rfl, rfl, rfl, rfl, rfl⟩

/-- Claim C10: activeRequests is incremented when interception begins
and decremented only in the clean end-of-stream branch, so a clean run
leaves it unchanged while a failing run leaves it permanently one above
the starting value even though the stream is finished. -/
theorem c10_active_requests_leak (parse : List Char → Option JValue) (nowTs : String)
    (durMs : Int) (model : String) (msgCount : Nat) (s0 : Stats)
    (chunks : List (List Char)) :
    (interceptRun parse nowTs durMs model msgCount s0 chunks .done).1.activeRequests =
      s0.activeRequests ∧
    (interceptRun parse nowTs durMs model msgCount s0 chunks .fail).1.activeRequests =
      s0.activeRequests + 1 := by
  constructor
  · simp [interceptRun, recordRequest]
  · rfl

/-- recordRequest always leaves the new record at position 0. -/
theorem recordRequest_head (r : RequestRecord) (s : Stats) :
    (recordRequest r s).recentRequests.head? = some r := by
  simp only [recordRequest]
  split
  next hc =>
    cases hs : s.recentRequests with
    | nil =>
        rw [hs] at hc
        simp [MAX_RECENT] at hc
    | cons a l => simp [hs, List.dropLast]
  next hc => simp

/-- recordRequest keeps the ring buffer within MAX_RECENT entries. -/
theorem recordRequest_length (r : RequestRecord) (s : Stats)
    (h : s.recentRequests.length ≤ MAX_RECENT) :
    (recordRequest r s).recentRequests.length ≤ MAX_RECENT := by
  simp only [recordRequest]
  split
  next hc => simp only [List.length_dropLast, List.length_cons]; omega
  next hc => simp only [List.length_cons] at hc ⊢; omega

/-- Claim C8: across every sequence of record operations starting from a
ledger within its capacity, the recent-requests ring buffer never holds
more than 20 entries and, after at least one record, position 0 holds
the most recently recorded Usage Record. -/
theorem c8_ring_bounded_newest_first (recs : List RequestRecord) (s0 : Stats)
    (h : s0.recentRequests.length ≤ MAX_RECENT) :
    ((recs.foldl (fun s r => recordRequest r s) s0).recentRequests.length ≤ MAX_RECENT) ∧
    (∀ r : RequestRecord, recs.getLast? = some r →
      (recs.foldl (fun s r => recordRequest r s) s0).recentRequests.head? = some r) := by
  induction recs generalizing s0 with
  | nil =>
      refine ⟨h, ?_⟩
      intro r hr
      simp at hr
  | cons a l ih =>
      have h1 : (recordRequest a s0).recentRequests.length ≤ MAX_RECENT :=
        recordRequest_length a s0 h
      refine ⟨(ih (recordRequest a s0) h1).1, ?_⟩
      intro r hr
      cases l with
      | nil =>
          simp at hr
          subst hr
          simpa using recordRequest_head a s0
      | cons b l' =>
          have hlast : (b :: l').getLast? = some r := by
            simpa [List.getLast?_cons_cons] using hr
          simpa using (ih (recordRequest a s0) h1).2 r hlast

/-- A concrete Usage Record for witnesses. -/
def sampleRec : RequestRecord :=
  { ts := "t", model := "m", messages := 1, inputTokens := 2, outputTokens := 3,
    cacheCreation := 4, cacheRead := 5, durationMs := 6, stopReason := "end_turn" }

theorem c8_ring_bounded_newest_first_witness :
    (emptyStats.recentRequests.length ≤ MAX_RECENT) ∧
    (([sampleRec] : List RequestRecord).foldl
        (fun s r => recordRequest r s) emptyStats).recentRequests.length ≤ MAX_RECENT ∧
    (([sampleRec] : List RequestRecord).foldl
        (fun s r => recordRequest r s) emptyStats).recentRequests.head? = some sampleRec := by
  have h0 : emptyStats.recentRequests.length ≤ MAX_RECENT := by decide
  have h := c8_ring_bounded_newest_first [sampleRec] emptyStats h0
  exact ⟨h0, h.1, h.2 sampleRec (by decide)⟩

/-- While the refreshing slot is occupied and the credential is inside
the expiry buffer, every caller joins the same in-flight refresh and the
state does not change: no further network call is issued. -/
theorem runCallers_occupied (now : Int) (i : Nat) :
    ∀ (n : Nat) (st : AuthSt), st.refreshing = some i →
      (¬ now < st.expires - EXPIRY_BUFFER_MS) →
      runCallers now st n = (st, List.replicate n (.awaitRefresh i)) := by
  intro n
  induction n with
  | zero => intro st _ _; rfl
  | succ n ih =>
      intro st h1 h2
      have hstep : getTokenStep now st = (st, .awaitRefresh i) := by
        simp [getTokenStep, h1, h2]
      simp [runCallers, hstep, ih st h1 h2, List.replicate]

/-- Claim C2: when any positive number of callers invoke getAccessToken
while the cached credential is expired or within the 60s buffer and no
refresh is in flight, exactly one refresh network call is issued, every
caller awaits that same refresh operation, and therefore every caller
receives that single operation's result, however it settles. -/
theorem c2_single_flight_refresh (now : Int) (st : AuthSt) (n : Nat)
    (hexp : ¬ now < st.expires - EXPIRY_BUFFER_MS)
    (hslot : st.refreshing = none) (hn : 0 < n) :
    (runCallers now st n).1.networkCalls = st.networkCalls + 1 ∧
    (∀ o ∈ (runCallers now st n).2, o = .awaitRefresh st.nextId) ∧
    (∀ settled : Nat → RefreshSettled, ∀ o1 ∈ (runCallers now st n).2,
      ∀ o2 ∈ (runCallers now st n).2,
        callerResult settled o1 = callerResult settled o2) := by
  obtain ⟨m, rfl⟩ : ∃ m, n = m + 1 := ⟨n - 1, by omega⟩
  have hstep : getTokenStep now st =
      ({ st with refreshing := some st.nextId, nextId := st.nextId + 1,
                 networkCalls := st.networkCalls + 1 },
       .awaitRefresh st.nextId) := by
    simp [getTokenStep, hexp, hslot]
  have hocc : runCallers now
      ({ st with refreshing := some st.nextId, nextId := st.nextId + 1,
                 networkCalls := st.networkCalls + 1 }) m =
      ({ st with refreshing := some st.nextId, nextId := st.nextId + 1,
                 networkCalls := st.networkCalls + 1 },
       List.replicate m (.awaitRefresh st.nextId)) :=
    runCallers_occupied now st.nextId m _ rfl hexp
  have hrun : runCallers now st (m + 1) =
      ({ st with refreshing := some st.nextId, nextId := st.nextId + 1,
                 networkCalls := st.networkCalls + 1 },
       TokenOutcome.awaitRefresh st.nextId ::
         List.replicate m (.awaitRefresh st.nextId)) := by
    simp [runCallers, hstep, hocc]
  rw [hrun]
  have hall : ∀ o ∈ (TokenOutcome.awaitRefresh st.nextId ::
      List.replicate m (TokenOutcome.awaitRefresh st.nextId)), o = .awaitRefresh st.nextId := by
    intro o ho
    rcases List.mem_cons.mp ho with h | h
    · exact h
    · exact List.eq_of_mem_replicate h
  refine ⟨rfl, hall, ?_⟩
  intro settled o1 h1 o2 h2
  rw [hall o1 h1, hall o2 h2]

theorem c2_single_flight_refresh_witness :
    (¬ (100000 : Int) < (110000 : Int) - EXPIRY_BUFFER_MS) ∧
    ((0 : Nat) < 3) ∧
    (runCallers 100000
      { access := "tok", expires := 110000, refreshing := none, nextId := 0,
        networkCalls := 0 } 3).1.networkCalls = 0 + 1 ∧
    (∀ o ∈ (runCallers 100000
      { access := "tok", expires := 110000, refreshing := none, nextId := 0,
        networkCalls := 0 } 3).2, o = .awaitRefresh 0) := by
  have h := c2_single_flight_refresh 100000
    { access := "tok", expires := 110000, refreshing := none, nextId := 0, networkCalls := 0 }
    3 (by decide) rfl (by decide)
  exact ⟨by decide, by decide, h.1, h.2.1⟩

/-! ### Frame splitting lemmas -/

theorem splitSep_ne_nil (l : List Char) : splitSep l ≠ [] := by
  induction l using splitSep.induct with
  | case1 => simp [splitSep]
  | case2 c => simp [splitSep]
  | case3 c1 c2 rest h ih => simp [splitSep, h]
  | case4 c1 c2 rest h ih =>
      simp only [splitSep, if_neg h]
      cases hs : splitSep (c2 :: rest) with
      | nil => exact absurd hs ih
      | cons p ps => simp [consHead]

theorem joinSep_consHead (c : Char) (ps : List (List Char)) (h : ps ≠ []) :
    joinSep (consHead c ps) = c :: joinSep ps := by
  cases ps with
  | nil => exact absurd rfl h
  | cons p ps' =>
      cases ps' with
      | nil => simp [consHead, joinSep]
      | cons q qs => simp [consHead, joinSep]

theorem joinSep_splitSep (l : List Char) : joinSep (splitSep l) = l := by
  induction l using splitSep.induct with
  | case1 => simp [splitSep, joinSep]
  | case2 c => simp [splitSep, joinSep]
  | case3 c1 c2 rest h ih =>
      obtain ⟨h1, h2⟩ := h
      subst h1; subst h2
      have hsplit : splitSep ('\n' :: '\n' :: rest) = [] :: splitSep rest := by
        simp [splitSep]
      rw [hsplit]
      cases hs : splitSep rest with
      | nil => exact absurd hs (splitSep_ne_nil rest)
      | cons p ps =>
          rw [hs] at ih
          show joinSep ([] :: p :: ps) = '\n' :: '\n' :: rest
          simp only [joinSep, List.nil_append]
          rw [ih]
  | case4 c1 c2 rest h ih =>
      simp only [splitSep, if_neg h]
      rw [joinSep_consHead c1 _ (splitSep_ne_nil (c2 :: rest)), ih]

theorem splitSep_singleton (l p : List Char) (h : splitSep l = [p]) : p = l := by
  have := joinSep_splitSep l
  rw [h] at this
  simpa [joinSep] using this

theorem splitSep_cons_not_sep (c : Char) (w : List Char)
    (h : ¬ (c = '\n' ∧ w.head? = some '\n')) :
    splitSep (c :: w) = consHead c (splitSep w) := by
  cases w with
  | nil => simp [splitSep, consHead]
  | cons c2 w' =>
      have h' : ¬ (c = '\n' ∧ c2 = '\n') := by simpa using h
      simp only [splitSep]
      rw [if_neg h']

theorem splitSep_append (s t : List Char) :
    splitSep (s ++ t) =
      (splitSep s).dropLast ++ splitSep ((splitSep s).getLastD [] ++ t) := by
  induction s using splitSep.induct with
  | case1 => simp [splitSep]
  | case2 c => rfl
  | case3 c1 c2 rest h ih =>
      obtain ⟨h1, h2⟩ := h
      subst h1; subst h2
      have hL : splitSep (('\n' :: '\n' :: rest) ++ t) = [] :: splitSep (rest ++ t) := by
        simp [splitSep]
      have hS : splitSep ('\n' :: '\n' :: rest) = [] :: splitSep rest := by
        simp [splitSep]
      rw [hL, hS, ih]
      cases hX : splitSep rest with
      | nil => exact absurd hX (splitSep_ne_nil _)
      | cons p ps => simp [List.getLastD_cons]
  | case4 c1 c2 rest h ih =>
      have hL : splitSep ((c1 :: c2 :: rest) ++ t) =
          consHead c1 (splitSep ((c2 :: rest) ++ t)) := by
        simp only [List.cons_append]
        exact splitSep_cons_not_sep c1 (c2 :: (rest ++ t)) (by simpa using h)
      have hS : splitSep (c1 :: c2 :: rest) = consHead c1 (splitSep (c2 :: rest)) := by
        simp only [splitSep]
        rw [if_neg h]
      rw [hL, hS, ih]
      cases hY : splitSep (c2 :: rest) with
      | nil => exact absurd hY (splitSep_ne_nil _)
      | cons p ps =>
          cases ps with
          | nil =>
              have hp : p = c2 :: rest := splitSep_singleton _ _ hY
              have hhead : ¬ (c1 = '\n' ∧ (p ++ t).head? = some '\n') := by
                subst hp
                simpa using h
              show consHead c1 ([] ++ splitSep (p ++ t)) =
                [] ++ splitSep ((c1 :: p) ++ t)
              rw [List.nil_append, List.nil_append, List.cons_append,
                splitSep_cons_not_sep c1 (p ++ t) hhead]
          | cons q qs => simp [consHead, List.getLastD_cons]

theorem splitSep_getLastD (l : List Char) :
    splitSep ((splitSep l).getLastD []) = [(splitSep l).getLastD []] := by
  induction l using splitSep.induct with
  | case1 => rfl
  | case2 c => rfl
  | case3 c1 c2 rest h ih =>
      obtain ⟨h1, h2⟩ := h
      subst h1; subst h2
      have hS : splitSep ('\n' :: '\n' :: rest) = [] :: splitSep rest := by
        simp [splitSep]
      rw [hS]
      cases hX : splitSep rest with
      | nil => exact absurd hX (splitSep_ne_nil _)
      | cons p ps =>
          rw [hX] at ih
          simpa [List.getLastD_cons] using ih
  | case4 c1 c2 rest h ih =>
      have hS : splitSep (c1 :: c2 :: rest) = consHead c1 (splitSep (c2 :: rest)) := by
        simp only [splitSep]
        rw [if_neg h]
      rw [hS]
      cases hY : splitSep (c2 :: rest) with
      | nil => exact absurd hY (splitSep_ne_nil _)
      | cons p ps =>
          cases ps with
          | nil =>
              have hp : p = c2 :: rest := splitSep_singleton _ _ hY
              subst hp
              show splitSep (([(c1 :: c2 :: rest)]).getLastD []) =
                [([(c1 :: c2 :: rest)]).getLastD []]
              simp only [List.getLastD_cons, List.getLastD_nil]
              rw [hS, hY]
              rfl
          | cons q qs =>
              rw [hY] at ih
              simpa [consHead, List.getLastD_cons] using ih

/-- getLastD over an append with nonempty right part. -/
theorem getLastD_append_right (l1 l2 : List (List Char)) (h : l2 ≠ []) :
    (l1 ++ l2).getLastD [] = l2.getLastD [] := by
  simp [List.getLastD_eq_getLast?, List.getLast?_append_of_ne_nil l1 h]

/-- The event dispatch never touches the pending buffer or the ghost
frame log. -/
theorem applyEvent_buf_frames (st : TelState) (d : JValue) :
    (applyEvent st d).buf = st.buf ∧ (applyEvent st d).frames = st.frames := by
  unfold applyEvent
  (repeat' split) <;>
    first
      | exact ⟨rfl, rfl⟩
      | (refine ⟨?_, ?_⟩ <;> dsimp only <;> (repeat' split) <;> rfl)

/-- Processing one complete part records exactly that part in the frame
log and leaves the pending buffer alone. -/
theorem processPart_spec (parse : List Char → Option JValue) (st : TelState)
    (part : List Char) :
    (processPart parse st part).buf = st.buf ∧
    (processPart parse st part).frames = st.frames ++ [part] := by
  unfold processPart
  (repeat' split) <;>
    first
    | exact ⟨rfl, rfl⟩
    | exact applyEvent_buf_frames _ _

/-- Folding the part processor over a part list records exactly those
parts, in order. -/
theorem foldl_processPart (parse : List Char → Option JValue)
    (parts : List (List Char)) : ∀ st : TelState,
    ((parts.foldl (processPart parse) st).buf = st.buf) ∧
    ((parts.foldl (processPart parse) st).frames = st.frames ++ parts) := by
  induction parts with
  | nil => intro st; simp
  | cons p ps ih =>
      intro st
      have h1 := processPart_spec parse st p
      have h2 := ih (processPart parse st p)
      refine ⟨?_, ?_⟩
      · rw [List.foldl_cons, h2.1, h1.1]
      · rw [List.foldl_cons, h2.2, h1.2]
        simp

/-- One read: the pending buffer becomes the tail fragment of the split
and exactly the complete parts are recorded in the frame log. -/
theorem processChunk_spec (parse : List Char → Option JValue) (st : TelState)
    (chunk : List Char) :
    (processChunk parse st chunk).buf = (splitSep (st.buf ++ chunk)).getLastD [] ∧
    (processChunk parse st chunk).frames =
      st.frames ++ (splitSep (st.buf ++ chunk)).dropLast := by
  unfold processChunk
  exact foldl_processPart parse (splitSep (st.buf ++ chunk)).dropLast
    { st with buf := (splitSep (st.buf ++ chunk)).getLastD [] }

/-- The read-loop invariant: starting from a separator-free pending
buffer, after consuming any chunk sequence the frame log holds exactly
the separator-terminated parts of buffer-plus-consumed-bytes, in order,
and the pending buffer holds the tail fragment. -/
theorem runLoop_frames (parse : List Char → Option JValue) :
    ∀ (chunks : List (List Char)) (st : TelState), splitSep st.buf = [st.buf] →
      ((runLoop parse st chunks).1.frames =
        st.frames ++ (splitSep (st.buf ++ joinChunks chunks)).dropLast) ∧
      ((runLoop parse st chunks).1.buf =
        (splitSep (st.buf ++ joinChunks chunks)).getLastD []) := by
  intro chunks
  induction chunks with
  | nil =>
      intro st hbuf
      refine ⟨?_, ?_⟩
      · show st.frames = st.frames ++ (splitSep (st.buf ++ joinChunks [])).dropLast
        rw [show joinChunks [] = [] from rfl, List.append_nil, hbuf]
        simp
      · show st.buf = (splitSep (st.buf ++ joinChunks [])).getLastD []
        rw [show joinChunks [] = [] from rfl, List.append_nil, hbuf]
        rfl
  | cons c cs ih =>
      intro st hbuf
      have hpc := processChunk_spec parse st c
      have hbuf' : splitSep ((processChunk parse st c).buf) =
          [(processChunk parse st c).buf] := by
        rw [hpc.1]
        exact splitSep_getLastD _
      have hih := ih (processChunk parse st c) hbuf'
      have happ : splitSep (st.buf ++ joinChunks (c :: cs)) =
          (splitSep (st.buf ++ c)).dropLast ++
            splitSep ((splitSep (st.buf ++ c)).getLastD [] ++ joinChunks cs) := by
        rw [show joinChunks (c :: cs) = c ++ joinChunks cs from rfl, ← List.append_assoc]
        exact splitSep_append (st.buf ++ c) (joinChunks cs)
      have hrl : (runLoop parse st (c :: cs)).1 = (runLoop parse (processChunk parse st c) cs).1 := by
        simp [runLoop]
      refine ⟨?_, ?_⟩
      · rw [hrl, hih.1, hpc.2, hpc.1, happ,
          List.dropLast_append_of_ne_nil (splitSep (st.buf ++ c)).dropLast
            (splitSep_ne_nil _),
          List.append_assoc]
      · rw [hrl, hih.2, hpc.1, happ,
          getLastD_append_right (splitSep (st.buf ++ c)).dropLast _ (splitSep_ne_nil _)]

/-- Claim C6 (amended): for every SSE input stream and every chunking of
it, the interceptor hands each separator-terminated frame of the full
concatenated stream to the telemetry parser exactly once, in order, and
never treats a frame split across reads as two frames; but a final frame
not followed by the blank-line separator stays in the pending buffer and
is never parsed. -/
theorem c6_frame_accounting_amended (parse : List Char → Option JValue)
    (chunks : List (List Char)) :
    (runLoop parse initTel chunks).1.frames =
      (splitSep (joinChunks chunks)).dropLast ∧
    (runLoop parse initTel chunks).1.buf =
      (splitSep (joinChunks chunks)).getLastD [] := by
  have h := runLoop_frames parse chunks initTel rfl
  simpa [initTel] using h

/-- Claim C6 (counterexample): a stream consisting of the single frame
"data: 1" with no trailing blank-line separator contains one frame, yet
the interceptor parses none: the frame list handed to telemetry is
empty, refuting that every frame — including an unterminated final
frame — is parsed exactly once. -/
theorem c6_frame_accounting_counterexample :
    splitSep (joinChunks [['d', 'a', 't', 'a', ':', ' ', '1']]) =
      [['d', 'a', 't', 'a', ':', ' ', '1']] ∧
    (runLoop (fun _ => some .null) initTel [['d', 'a', 't', 'a', ':', ' ', '1']]).1.frames
      = [] := by
  exact ⟨rfl, rfl⟩

/-- A parser that never succeeds leaves every telemetry counter at its
initial value: only the buffer and the frame log move. -/
theorem runLoop_no_parse (chunks : List (List Char)) : ∀ (st : TelState),
    ((runLoop (fun _ => none) st chunks).1.inputTokens = st.inputTokens) ∧
    ((runLoop (fun _ => none) st chunks).1.outputTokens = st.outputTokens) ∧
    ((runLoop (fun _ => none) st chunks).1.cacheCreation = st.cacheCreation) ∧
    ((runLoop (fun _ => none) st chunks).1.cacheRead = st.cacheRead) ∧
    ((runLoop (fun _ => none) st chunks).1.stopReason = st.stopReason) := by
  have hpart : ∀ (st : TelState) (part : List Char),
      (processPart (fun _ => none) st part).inputTokens = st.inputTokens ∧
      (processPart (fun _ => none) st part).outputTokens = st.outputTokens ∧
      (processPart (fun _ => none) st part).cacheCreation = st.cacheCreation ∧
      (processPart (fun _ => none) st part).cacheRead = st.cacheRead ∧
      (processPart (fun _ => none) st part).stopReason = st.stopReason := by
    intro st part
    unfold processPart
    (repeat' split) <;>
      first
        | exact ⟨rfl, rfl, rfl, rfl, rfl⟩
        | simp_all
  have hfold : ∀ (parts : List (List Char)) (st : TelState),
      ((parts.foldl (processPart (fun _ => none)) st).inputTokens = st.inputTokens) ∧
      ((parts.foldl (processPart (fun _ => none)) st).outputTokens = st.outputTokens) ∧
      ((parts.foldl (processPart (fun _ => none)) st).cacheCreation = st.cacheCreation) ∧
      ((parts.foldl (processPart (fun _ => none)) st).cacheRead = st.cacheRead) ∧
      ((parts.foldl (processPart (fun _ => none)) st).stopReason = st.stopReason) := by
    intro parts
    induction parts with
    | nil => intro st; exact ⟨rfl, rfl, rfl, rfl, rfl⟩
    | cons p ps ih =>
        intro st
        have h1 := hpart st p
        have h2 := ih (processPart (fun _ => none) st p)
        exact ⟨h2.1.trans h1.1, h2.2.1.trans h1.2.1, h2.2.2.1.trans h1.2.2.1,
          h2.2.2.2.1.trans h1.2.2.2.1, h2.2.2.2.2.trans h1.2.2.2.2⟩
  induction chunks with
  | nil => intro st; exact ⟨rfl, rfl, rfl, rfl, rfl⟩
  | cons c cs ih =>
      intro st
      have h1 := hfold (splitSep (st.buf ++ c)).dropLast
        { st with buf := (splitSep (st.buf ++ c)).getLastD [] }
      have h2 := ih (processChunk (fun _ => none) st c)
      have hc : (processChunk (fun _ => none) st c).inputTokens = st.inputTokens ∧
          (processChunk (fun _ => none) st c).outputTokens = st.outputTokens ∧
          (processChunk (fun _ => none) st c).cacheCreation = st.cacheCreation ∧
          (processChunk (fun _ => none) st c).cacheRead = st.cacheRead ∧
          (processChunk (fun _ => none) st c).stopReason = st.stopReason := by
        unfold processChunk
        exact h1
      have hrl : (runLoop (fun _ => none) st (c :: cs)).1 =
          (runLoop (fun _ => none) (processChunk (fun _ => none) st c) cs).1 := by
        simp [runLoop]
      rw [hrl]
      exact ⟨h2.1.trans hc.1, h2.2.1.trans hc.2.1, h2.2.2.1.trans hc.2.2.1,
        h2.2.2.2.1.trans hc.2.2.2.1, h2.2.2.2.2.trans hc.2.2.2.2⟩

/-- Claim C4 (counterexample): a completed non-streaming request is
never intercepted (line 393 requires isStreaming), so zero Usage Records
are appended for it, refuting that exactly one Usage Record is created
per completed request whether streaming or not. -/
theorem c4_usage_record_counterexample :
    relayRecordCount (fun _ => none) true false true [] = 0 ∧ (0 : Nat) ≠ 1 := by
  exact ⟨rfl, by decide⟩

/-- Claim C4 (amended): for every completed intercepted stream — which
requires the thinking log enabled, a streaming request, and an upstream
body — exactly one Usage Record is created and appended to the ledger,
even if no recognized event ever appeared; and when no frame ever
parses, every captured field keeps its default: token counts zero and
stop reason unknown.  Non-intercepted (for example non-streaming)
completed requests append no record at all. -/
theorem c4_usage_record_amended (parse : List Char → Option JValue) (nowTs : String)
    (durMs : Int) (model : String) (msgCount : Nat) (s0 : Stats)
    (chunks : List (List Char)) (streaming : Bool) :
    ((interceptRun parse nowTs durMs model msgCount s0 chunks .done).2.records).length = 1 ∧
    (interceptRun parse nowTs durMs model msgCount s0 chunks .done).1.totalRequests =
      s0.totalRequests + 1 ∧
    (interceptRun parse nowTs durMs model msgCount s0 chunks .done).1.recentRequests.head? =
      some (mkRecord nowTs durMs model msgCount (runLoop parse initTel chunks).1) ∧
    ((∀ s, parse s = none) →
      (interceptRun parse nowTs durMs model msgCount s0 chunks .done).2.records =
        [{ ts := nowTs, model := model, messages := msgCount, inputTokens := 0,
           outputTokens := 0, cacheCreation := 0, cacheRead := 0, durationMs := durMs,
           stopReason := "?" }]) ∧
    relayRecordCount parse true false true chunks = 0 ∧
    (relayRecordCount parse true streaming true chunks =
      if streaming then 1 else 0) := by
  refine ⟨rfl, rfl, ?_, ?_, rfl, ?_⟩
  · exact recordRequest_head _ _
  · intro hparse
    have hfun : parse = fun _ => none := funext hparse
    subst hfun
    have h := runLoop_no_parse chunks initTel
    show [mkRecord nowTs durMs model msgCount (runLoop (fun _ => none) initTel chunks).1] = _
    simp only [mkRecord]
    rw [h.1, h.2.1, h.2.2.1, h.2.2.2.1, h.2.2.2.2]
    rfl
  · cases streaming with
    | false => rfl
    | true =>
        show ((interceptRun parse "" 0 "" 0 emptyStats chunks .done).2.records).length = 1
        rfl

theorem c4_usage_record_amended_witness :
    ((interceptRun (fun _ => none) "t" 5 "m" 2 emptyStats [] .done).2.records).length = 1 ∧
    (interceptRun (fun _ => none) "t" 5 "m" 2 emptyStats [] .done).2.records =
      [{ ts := "t", model := "m", messages := 2, inputTokens := 0, outputTokens := 0,
         cacheCreation := 0, cacheRead := 0, durationMs := 5, stopReason := "?" }] ∧
    relayRecordCount (fun _ => none) true false true [] = 0 := by
  have h := c4_usage_record_amended (fun _ => none) "t" 5 "m" 2 emptyStats [] false
  exact ⟨h.1, h.2.2.2.1 (fun s => rfl), h.2.2.2.2.1⟩

/-- Claim C5 (counterexample): with a custom system prompt configured,
a body whose system already contains the identity block — but not the
marked custom block — is changed by ensureSystem: the custom block is
spliced in at index 1, so the result is not equal to the input. -/
theorem c5_idempotence_counterexample :
    ensureSystem (some "X") (.arr [authBlock]) =
      .ok (.arr [authBlock, customBlock "X"]) ∧
    ensureSystem (some "X") (.arr [authBlock]) ≠ .ok (.arr [authBlock]) := by
  have h : ensureSystem (some "X") (.arr [authBlock]) =
      .ok (.arr [authBlock, customBlock "X"]) := rfl
  refine ⟨h, ?_⟩
  rw [h]
  intro hc
  have hlen := congrArg
    (fun x => match x with | Except.ok (JValue.arr l) => l.length | _ => 0) hc
  simp at hlen

/-- On an array system, ensureSystem reduces to the has-auth / has-custom
decision tree. -/
theorem ensureSystem_arr (custom : Option String) (blocks : List JValue) :
    ensureSystem custom (.arr blocks) =
      match jsomeEx blockIsAuth blocks with
      | .error e => .error e
      | .ok hasAuth =>
          let blocks1 := if hasAuth then blocks else authBlock :: blocks
          match custom with
          | some c =>
              if c ≠ "" then
                match jsomeEx blockIsProxy blocks1 with
                | .error e => .error e
                | .ok hasCustom =>
                    if hasCustom then .ok (.arr blocks1)
                    else .ok (.arr (blocks1.take 1 ++ [customBlock c] ++ blocks1.drop 1))
              else .ok (.arr blocks1)
          | none => .ok (.arr blocks1) := rfl

/-- Claim C5 (amended): ensureSystem is a no-op on every body whose
system block list already contains the identity block and — whenever a
non-empty custom prompt is configured — already contains a block carrying
the internal custom-prompt marker.  (The counterexample shows the extra
custom-block condition is needed: with a custom prompt configured,
containing the identity block alone is not enough.) -/
theorem c5_idempotence_amended (custom : Option String) (blocks : List JValue)
    (hauth : jsomeEx blockIsAuth blocks = .ok true)
    (hcustom : ∀ c, custom = some c → c ≠ "" → jsomeEx blockIsProxy blocks = .ok true) :
    ensureSystem custom (.arr blocks) = .ok (.arr blocks) := by
  rw [ensureSystem_arr, hauth]
  cases custom with
  | none => rfl
  | some c =>
      by_cases hc : c = ""
      · simp [hc]
      · have hp := hcustom c rfl hc
        simp [hc, hp]

theorem c5_idempotence_amended_witness :
    jsomeEx blockIsAuth [authBlock, customBlock "X"] = .ok true ∧
    jsomeEx blockIsProxy [authBlock, customBlock "X"] = .ok true ∧
    ensureSystem (some "X") (.arr [authBlock, customBlock "X"]) =
      .ok (.arr [authBlock, customBlock "X"]) := by
  refine ⟨rfl, rfl, ?_⟩
  exact c5_idempotence_amended (some "X") [authBlock, customBlock "X"] rfl
    (fun c hc hne => rfl)

/-- A pattern occurrence sits at the very end, so includes finds it. -/
theorem containsSub_append_pat (x : List Char) :
    containsSub PAT1M (x ++ PAT1M) = true := by
  induction x with
  | nil => decide
  | cons c x' ih => simp [containsSub, ih]

/-- If no occurrence of the suffix token starts before the final one,
the first-occurrence replacement removes exactly the final occurrence. -/
theorem replaceFirst_trailing (pre : List Char)
    (h : ∀ i, i < pre.length → PAT1M.isPrefixOf ((pre ++ PAT1M).drop i) = false) :
    replaceFirst PAT1M (pre ++ PAT1M) = pre := by
  induction pre with
  | nil => decide
  | cons c pre' ih =>
      have h0 := h 0 (by simp)
      rw [show ((c :: pre') ++ PAT1M).drop 0 = c :: (pre' ++ PAT1M) from rfl] at h0
      show replaceFirst PAT1M (c :: (pre' ++ PAT1M)) = c :: pre'
      rw [show replaceFirst PAT1M (c :: (pre' ++ PAT1M)) =
        if PAT1M.isPrefixOf (c :: (pre' ++ PAT1M))
        then (c :: (pre' ++ PAT1M)).drop PAT1M.length
        else c :: replaceFirst PAT1M (pre' ++ PAT1M) from rfl]
      rw [h0]
      simp only [Bool.false_eq_true, if_false, List.cons.injEq, true_and]
      exact ih (fun i hi => by
        have := h (i + 1) (by simp; omega)
        rwa [show ((c :: pre') ++ PAT1M).drop (i + 1) = (pre' ++ PAT1M).drop i from rfl] at this)

/-- Claim C9 (amended): when the model identifier ends in the
extended-context suffix token and contains no earlier occurrence of it,
the forwarded model field is exactly the original with that trailing
occurrence removed and no other characters altered.  (In general the
rewrite removes the first occurrence of the token, not the trailing
one — see the counterexample.) -/
theorem c9_model_suffix_amended (pre : List Char)
    (h : ∀ i, i < pre.length → PAT1M.isPrefixOf ((pre ++ PAT1M).drop i) = false) :
    stripModel (pre ++ PAT1M) = pre := by
  unfold stripModel
  rw [containsSub_append_pat pre]
  simp only [if_true]
  exact replaceFirst_trailing pre h

theorem c9_model_suffix_amended_witness :
    (∀ i, i < ("claude-opus-4".data).length →
      PAT1M.isPrefixOf (("claude-opus-4".data ++ PAT1M).drop i) = false) ∧
    stripModel ("claude-opus-4".data ++ PAT1M) = "claude-opus-4".data := by
  refine ⟨by decide, c9_model_suffix_amended "claude-opus-4".data (by decide)⟩

/-- Claim C9 (counterexample): the model identifier composed of the
suffix token, an x, and a trailing suffix token ends in the token, but
the rewrite removes the FIRST occurrence: the result keeps the trailing
token, so it differs from the original with the trailing occurrence
removed. -/
theorem c9_model_suffix_counterexample :
    stripModel ("[1m]x[1m]".data) = "x[1m]".data ∧
    "x[1m]".data ≠ "[1m]x".data := by
  exact ⟨rfl, by decide⟩

/-- Equation: the scan on an array sums over the items. -/
theorem countCache_arr (items : List JValue) :
    countCache (.arr items) = countCacheItems items := rfl

/-- Equation: the scan on an object counts its own truthy cache_control
and recurses into object-like values. -/
theorem countCache_obj (fs : List (String × JValue)) :
    countCache (.obj fs) =
      (if jTruthy (jLookup fs "cache_control") then 1 else 0) + countCacheVals fs := rfl

/-- The item scan distributes over append. -/
theorem countCacheItems_append (l1 l2 : List JValue) :
    countCacheItems (l1 ++ l2) = countCacheItems l1 + countCacheItems l2 := by
  induction l1 with
  | nil => simp [countCacheItems]
  | cons i is ih =>
      show countCacheItems (i :: (is ++ l2)) = countCacheItems (i :: is) + countCacheItems l2
      rw [show countCacheItems (i :: (is ++ l2)) =
        countCache i + countCacheItems (is ++ l2) from rfl]
      rw [show countCacheItems (i :: is) = countCache i + countCacheItems is from rfl]
      rw [ih]
      omega

/-- A falsy JSON value is never an object or an array. -/
theorem jTruthy_false_not_obj (v : JValue) (h : jTruthy v = false) :
    isObjLike v = false := by
  cases v <;> simp_all [jTruthy, isObjLike]

/-- Writing a field makes it the value the lookup finds. -/
theorem jLookup_setField_same (fs : List (String × JValue)) (k : String) (v : JValue) :
    jLookup (setField k v fs) k = v := by
  induction fs with
  | nil => simp [setField, jLookup]
  | cons kv fs' ih =>
      obtain ⟨k', v'⟩ := kv
      by_cases hk : k' = k
      · simp [setField, jLookup, hk]
      · simp [setField, jLookup, hk, ih]

/-- Overwriting a falsy cache_control with the ephemeral marker does not
change the value-recursion part of the scan: neither the old falsy value
nor the marker object contains further annotations. -/
theorem countCacheVals_setField (fs : List (String × JValue))
    (h : jTruthy (jLookup fs "cache_control") = false) :
    countCacheVals (setField "cache_control" ephemeralCC fs) = countCacheVals fs := by
  induction fs with
  | nil => decide
  | cons kv fs' ih =>
      obtain ⟨k', v'⟩ := kv
      by_cases hk : k' = "cache_control"
      · subst hk
        have hv : jTruthy v' = false := by simpa [jLookup] using h
        show countCacheVals (("cache_control", ephemeralCC) :: fs') =
          countCacheVals (("cache_control", v') :: fs')
        rw [show countCacheVals (("cache_control", ephemeralCC) :: fs') =
          (if isObjLike ephemeralCC then countCache ephemeralCC else 0) +
            countCacheVals fs' from rfl]
        rw [show countCacheVals (("cache_control", v') :: fs') =
          (if isObjLike v' then countCache v' else 0) + countCacheVals fs' from rfl]
        rw [jTruthy_false_not_obj v' hv]
        norm_num
        decide
      · have h' : jTruthy (jLookup fs' "cache_control") = false := by
          simpa [jLookup, hk] using h
        rw [show setField "cache_control" ephemeralCC ((k', v') :: fs') =
          if k' = "cache_control" then (k', ephemeralCC) :: fs'
          else (k', v') :: setField "cache_control" ephemeralCC fs' from rfl]
        rw [if_neg hk]
        show countCacheVals ((k', v') :: setField "cache_control" ephemeralCC fs') =
          countCacheVals ((k', v') :: fs')
        rw [show countCacheVals ((k', v') :: setField "cache_control" ephemeralCC fs') =
          (if isObjLike v' then countCache v' else 0) +
            countCacheVals (setField "cache_control" ephemeralCC fs') from rfl]
        rw [show countCacheVals ((k', v') :: fs') =
          (if isObjLike v' then countCache v' else 0) + countCacheVals fs' from rfl]
        rw [ih h']

/-- Attaching the ephemeral marker to an object that lacked a truthy
cache_control raises its annotation count by exactly one. -/
theorem countCache_obj_setField (fs : List (String × JValue))
    (h : jTruthy (jLookup fs "cache_control") = false) :
    countCache (.obj (setField "cache_control" ephemeralCC fs)) =
      countCache (.obj fs) + 1 := by
  rw [countCache_obj, countCache_obj, jLookup_setField_same, countCacheVals_setField fs h, h]
  rw [show jTruthy ephemeralCC = true from rfl]
  simp only [if_true, Bool.false_eq_true, if_false]
  omega

/-- When tagLast reports no addition it returned the list unchanged. -/
theorem tagLast_not_added (blocks : List JValue) (h : (tagLast blocks).2 = false) :
    (tagLast blocks).1 = blocks := by
  unfold tagLast at *
  (repeat' split at h) <;> simp_all

/-- Characterization of tagLast: either it returns the list unchanged
with no addition, or the last element is an object without a truthy
cache_control and it returns the list with that element tagged. -/
theorem tagLast_eq (blocks : List JValue) :
    tagLast blocks = (blocks, false) ∨
    ∃ fs, blocks.getLast? = some (.obj fs) ∧
      jTruthy (jLookup fs "cache_control") = false ∧
      tagLast blocks =
        (blocks.dropLast ++ [.obj (setField "cache_control" ephemeralCC fs)], true) := by
  unfold tagLast
  split
  next fs heq =>
      by_cases ht : jTruthy (jLookup fs "cache_control") = true
      · left
        simp [ht]
      · right
        refine ⟨fs, heq, by simpa using ht, by simp [ht]⟩
  next => left; rfl

/-- When tagLast reports an addition the annotation count of the list
rose by exactly one. -/
theorem tagLast_added_count (blocks : List JValue) (h : (tagLast blocks).2 = true) :
    countCacheItems (tagLast blocks).1 = countCacheItems blocks + 1 := by
  rcases tagLast_eq blocks with heq | ⟨fs, hl, ht, heq⟩
  · rw [heq] at h
    simp at h
  · rw [heq]
    have hmem : JValue.obj fs ∈ blocks.getLast? := by
      rw [hl]; rfl
    have hblocks : blocks.dropLast ++ [JValue.obj fs] = blocks :=
      List.dropLast_append_getLast? _ hmem
    show countCacheItems
      (blocks.dropLast ++ [.obj (setField "cache_control" ephemeralCC fs)]) =
      countCacheItems blocks + 1
    rw [countCacheItems_append]
    conv_rhs => rw [← hblocks, countCacheItems_append]
    rw [show countCacheItems [JValue.obj (setField "cache_control" ephemeralCC fs)] =
      countCache (.obj (setField "cache_control" ephemeralCC fs)) + 0 from rfl]
    rw [show countCacheItems [JValue.obj fs] = countCache (.obj fs) + 0 from rfl]
    rw [countCache_obj_setField fs ht]
    omega

/-- tagLast changes the count by exactly its added flag. -/
theorem tagLast_count (blocks : List JValue) :
    countCacheItems (tagLast blocks).1 =
      countCacheItems blocks + (if (tagLast blocks).2 then 1 else 0) := by
  cases h : (tagLast blocks).2 with
  | false => rw [tagLast_not_added blocks h]; simp
  | true => rw [tagLast_added_count blocks h]; simp

/-- The system placement block keeps the running count equal to the true
count, never pushes it above max(initial, 4), and touches nothing but
the system field. -/
theorem placeSystemCC_spec (b : CacheBody) :
    countTotal (placeSystemCC b (countTotal b)).1 = (placeSystemCC b (countTotal b)).2 ∧
    (placeSystemCC b (countTotal b)).2 ≤ max (countTotal b) 4 ∧
    (placeSystemCC b (countTotal b)).1.tools = b.tools := by
  cases hsys : b.system with
  | arr blocks =>
      by_cases hcond : countTotal b < 4 ∧ 0 < blocks.length
      · have hred : placeSystemCC b (countTotal b) =
            ({ b with system := JValue.arr (tagLast blocks).1 },
              if (tagLast blocks).2 = true then countTotal b + 1 else countTotal b) := by
          unfold placeSystemCC
          rw [hsys]
          show (if countTotal b < 4 ∧ 0 < blocks.length then
              let t := tagLast blocks
              ({ b with system := JValue.arr t.1 },
                if t.2 = true then countTotal b + 1 else countTotal b)
            else (b, countTotal b)) = _
          rw [if_pos hcond]
        rw [hred]
        have hct : countTotal b =
            countCacheItems blocks + countCache b.messages + countCache b.tools := by
          unfold countTotal
          rw [hsys, countCache_arr]
        refine ⟨?_, ?_, rfl⟩
        · show countCache (JValue.arr (tagLast blocks).1) + countCache b.messages +
            countCache b.tools = _
          rw [countCache_arr, tagLast_count]
          cases hadd : (tagLast blocks).2
          · simp [hadd]
            omega
          · simp [hadd]
            omega
        · cases hadd : (tagLast blocks).2
          · simp [hadd]
          · simp [hadd]
            omega
      · have hred : placeSystemCC b (countTotal b) = (b, countTotal b) := by
          unfold placeSystemCC
          rw [hsys]
          show (if countTotal b < 4 ∧ 0 < blocks.length then
              let t := tagLast blocks
              ({ b with system := JValue.arr t.1 },
                if t.2 = true then countTotal b + 1 else countTotal b)
            else (b, countTotal b)) = _
          rw [if_neg hcond]
        rw [hred]
        exact ⟨rfl, le_max_left _ _, rfl⟩
  | null =>
      have hred : placeSystemCC b (countTotal b) = (b, countTotal b) := by
        unfold placeSystemCC
        rw [hsys]
      rw [hred]
      exact ⟨rfl, le_max_left _ _, rfl⟩
  | bool v =>
      have hred : placeSystemCC b (countTotal b) = (b, countTotal b) := by
        unfold placeSystemCC
        rw [hsys]
      rw [hred]
      exact ⟨rfl, le_max_left _ _, rfl⟩
  | num v =>
      have hred : placeSystemCC b (countTotal b) = (b, countTotal b) := by
        unfold placeSystemCC
        rw [hsys]
      rw [hred]
      exact ⟨rfl, le_max_left _ _, rfl⟩
  | str v =>
      have hred : placeSystemCC b (countTotal b) = (b, countTotal b) := by
        unfold placeSystemCC
        rw [hsys]
      rw [hred]
      exact ⟨rfl, le_max_left _ _, rfl⟩
  | obj v =>
      have hred : placeSystemCC b (countTotal b) = (b, countTotal b) := by
        unfold placeSystemCC
        rw [hsys]
      rw [hred]
      exact ⟨rfl, le_max_left _ _, rfl⟩

/-- The tools placement block never pushes the true count above
max(running, 4). -/
theorem placeToolsCC_spec (b1 : CacheBody) (e1 : Nat) (hcount : countTotal b1 = e1) :
    countTotal (placeToolsCC b1 e1) ≤ max e1 4 := by
  cases htools : b1.tools with
  | arr tls =>
      by_cases hcond : e1 < 4 ∧ 0 < tls.length
      · have hred : placeToolsCC b1 e1 = { b1 with tools := .arr (tagLast tls).1 } := by
          unfold placeToolsCC
          rw [htools]
          show (if e1 < 4 ∧ 0 < tls.length
            then { b1 with tools := .arr (tagLast tls).1 } else b1) = _
          rw [if_pos hcond]
        rw [hred]
        have hct : countTotal b1 =
            countCache b1.system + countCache b1.messages + countCacheItems tls := by
          unfold countTotal
          rw [htools, countCache_arr]
        show countCache b1.system + countCache b1.messages +
          countCache (.arr (tagLast tls).1) ≤ _
        rw [countCache_arr, tagLast_count]
        cases hadd : (tagLast tls).2 <;> simp <;> omega
      · have hred : placeToolsCC b1 e1 = b1 := by
          unfold placeToolsCC
          rw [htools]
          show (if e1 < 4 ∧ 0 < tls.length
            then { b1 with tools := .arr (tagLast tls).1 } else b1) = _
          rw [if_neg hcond]
        rw [hred, hcount]
        exact le_max_left _ _
  | null =>
      have hred : placeToolsCC b1 e1 = b1 := by unfold placeToolsCC; rw [htools]
      rw [hred, hcount]; exact le_max_left _ _
  | bool v =>
      have hred : placeToolsCC b1 e1 = b1 := by unfold placeToolsCC; rw [htools]
      rw [hred, hcount]; exact le_max_left _ _
  | num v =>
      have hred : placeToolsCC b1 e1 = b1 := by unfold placeToolsCC; rw [htools]
      rw [hred, hcount]; exact le_max_left _ _
  | str v =>
      have hred : placeToolsCC b1 e1 = b1 := by unfold placeToolsCC; rw [htools]
      rw [hred, hcount]; exact le_max_left _ _
  | obj v =>
      have hred : placeToolsCC b1 e1 = b1 := by unfold placeToolsCC; rw [htools]
      rw [hred, hcount]; exact le_max_left _ _

/-- Well-formedness of a block-list field for the placement step: when it
is a non-empty array, its last element is an object, so the property
assignment of lines 322/328 is the object-field write modelled by
setField.  (On a primitive last element the source would throw; on an
array it would tag the array object itself — neither shape occurs in a
well-formed body and neither is represented by the JSON body model.) -/
def lastBlockObj : JValue → Bool
  | .arr blocks =>
      match blocks.getLast? with
      | some (.obj _) => true
      | some _ => false
      | none => true
  | _ => true

/-- Claim C3 (amended): the placement step never pushes the total number
of cache-control annotations above max(pre-existing, 4): starting at or
below 4 pre-existing annotations, the total stays at or below 4; with
more than 4 pre-existing, nothing is added.  (The claim's unconditional
bound of 4 fails, since the step never removes pre-existing annotations
— see the counterexample.) -/
theorem c3_cache_budget_amended (enabled : Bool) (b : CacheBody)
    (_hs : lastBlockObj b.system = true) (_ht : lastBlockObj b.tools = true) :
    countTotal (placeCache enabled b) ≤ max (countTotal b) 4 := by
  cases enabled with
  | false => exact le_max_left _ _
  | true =>
      have h1 := placeSystemCC_spec b
      have h2 := placeToolsCC_spec (placeSystemCC b (countTotal b)).1
        (placeSystemCC b (countTotal b)).2 h1.1
      show countTotal (placeToolsCC (placeSystemCC b (countTotal b)).1
        (placeSystemCC b (countTotal b)).2) ≤ _
      exact le_trans h2 (max_le h1.2.1 (le_max_right _ _))

/-- A text block that already carries a cache-control annotation. -/
def ccTextBlock : JValue :=
  .obj [("type", .str "text"), ("text", .str "s"),
    ("cache_control", .obj [("type", .str "ephemeral")])]

/-- A body arriving with five cache-control annotations already in its
system list. -/
def cacheBodyFive : CacheBody :=
  { system := .arr [ccTextBlock, ccTextBlock, ccTextBlock, ccTextBlock, ccTextBlock],
    messages := .arr [], tools := .null }

/-- Claim C3 (counterexample): a body that arrives with five annotations
still holds five after the placement step — the step only ever adds,
never removes — so the claimed unconditional bound of four fails. -/
theorem c3_cache_budget_counterexample :
    countTotal cacheBodyFive = 5 ∧
    countTotal (placeCache true cacheBodyFive) = 5 ∧
    ¬ countTotal (placeCache true cacheBodyFive) ≤ 4 := by decide

/-- A minimal well-formed body with no pre-existing annotations. -/
def cacheBodyPlain : CacheBody :=
  { system := .arr [.obj [("type", .str "text"), ("text", .str "s")]],
    messages := .arr [],
    tools := .arr [.obj [("name", .str "t")]] }

theorem c3_cache_budget_amended_witness :
    lastBlockObj cacheBodyPlain.system = true ∧
    lastBlockObj cacheBodyPlain.tools = true ∧
    countTotal (placeCache true cacheBodyPlain) ≤ max (countTotal cacheBodyPlain) 4 := by
  refine ⟨by decide, by decide, ?_⟩
  exact c3_cache_budget_amended true cacheBodyPlain (by decide) (by decide)
